import Mathlib

/-!
Shallow embedding of the jmalloc arena allocator (`src/jmalloc.c`, LP64 layout).

The C program keeps a global doubly linked chain of block headers spanning all
arenas, a doubly linked arena registry, and two counters.  The embedding models
the chain as the Lean list of its records in chain order (`g_head` first,
`g_tail` last), the arena registry as a list in most-recently-acquired order,
and process memory as a byte map `Nat → Nat` covering payload bytes; writing a
fresh header over raw bytes is modelled by `clobber`.  Pointers are `Nat`
addresses with `0` playing the role of `NULL`.  Unlinking a block by pointer
surgery leaves its header bytes (with the free flag still set) in place in the
C program; the `stale` field records the addresses of such unlinked headers so
that `j_free` on them behaves as the source does (it reads `free == 1` and
returns).  Dereferencing a pointer that matches neither a linked block nor a
stale header is undefined behaviour in C and yields `none` here.  The Region
Provider (`os_alloc`) is an oracle argument: `some base` is the base address of
a granted region, `none` is exhaustion.  On LP64, `sizeof(block_header_t)` and
`sizeof(arena_header_t)` are both 32, already multiples of `ALIGNMENT`.
-/

namespace JMalloc

/-- `ALIGNMENT` from jmalloc.c: every payload size and address unit is 8. -/
def ALIGNMENT : Nat := 8

/-- `ALIGN_UP(x, a)`: for the power-of-two alignments used by the source,
`(x + a - 1) & ~(a - 1)` equals `((x + a - 1) / a) * a`. -/
def alignUp (x a : Nat) : Nat := ((x + a - 1) / a) * a

/-- `header_size()`: `ALIGN_UP(sizeof(block_header_t), ALIGNMENT)` = 32 on LP64. -/
def headerSize : Nat := 32

/-- `arena_header_size()`: `ALIGN_UP(sizeof(arena_header_t), ALIGNMENT)` = 32 on LP64. -/
def arenaHeaderSize : Nat := 32

/-- `ARENA_MIN_SIZE`: 1 MiB minimum growth unit. -/
def ARENA_MIN_SIZE : Nat := 1048576

/-- Page rounding performed inside `os_alloc`: `(n + ps - 1) & ~(ps - 1)` for a
power-of-two page size `ps`, i.e. `ceil(n / ps) * ps`. -/
def osRound (n ps : Nat) : Nat := ((n + ps - 1) / ps) * ps

/-- One `block_header_t` record together with its own address. -/
structure BlockH where
  addr : Nat
  size : Nat
  free : Bool
deriving DecidableEq

/-- One `arena_header_t` record together with its base address. -/
structure Arena where
  base : Nat
  size : Nat
  firstBlock : Nat
deriving DecidableEq

/-- The allocator's global state: page size of the platform, `g_arenas`,
the global chain `g_head .. g_tail`, `g_total_bytes`, `g_free_bytes`,
the payload byte view of memory, and addresses of unlinked stale headers. -/
structure AState where
  ps : Nat
  arenas : List Arena
  chain : List BlockH
  totalBytes : Nat
  freeTally : Nat
  mem : Nat → Nat
  stale : List Nat

/-- The empty allocator on a platform with page size `ps`. -/
def initState (ps : Nat) : AState :=
  { ps := ps, arenas := [], chain := [], totalBytes := 0, freeTally := 0,
    mem := fun _ => 0, stale := [] }

/-- Overwrite the `n` bytes starting at `a` (a fresh header being written). -/
def clobber (m : Nat → Nat) (a n : Nat) : Nat → Nat :=
  fun x => if a ≤ x ∧ x < a + n then 0 else m x

/-- `memcpy(dst, src, n)` on the byte view (regions disjoint in every use). -/
def copyBytes (m : Nat → Nat) (dst src n : Nat) : Nat → Nat :=
  fun x => if dst ≤ x ∧ x < dst + n then m (src + (x - dst)) else m x

/-- The `n` bytes stored at `a`. -/
def readBytes (m : Nat → Nat) (a n : Nat) : List Nat :=
  (List.range n).map (fun i => m (a + i))

/-- Recover the block record a header pointer denotes: the chain member whose
header address is `a` (addresses are unique in any state the C program reaches). -/
def lookupBlock (c : List BlockH) (a : Nat) : Option BlockH :=
  match c with
  | [] => none
  | b :: rest => if b.addr = a then some b else lookupBlock rest a

/-- `blk->next`: the chain successor of the block at address `a`. -/
def nextOf (c : List BlockH) (a : Nat) : Option BlockH :=
  match c with
  | [] => none
  | b :: rest => if b.addr = a then rest.head? else nextOf rest a

/-- Write `blk->free = v` through the header at address `a`. -/
def setFreeFlag (c : List BlockH) (a : Nat) (v : Bool) : List BlockH :=
  match c with
  | [] => []
  | b :: rest =>
    if b.addr = a then { b with free := v } :: rest else b :: setFreeFlag rest a v

/-- Chain surgery of `split_block`: shrink the block at `a` to `req` and link a
new free block right after it at `a + header_size() + req` holding the rest. -/
def splitChain (c : List BlockH) (a req : Nat) : List BlockH :=
  match c with
  | [] => []
  | b :: rest =>
    if b.addr = a then
      { b with size := req } ::
        ⟨b.addr + headerSize + req, b.size - req - headerSize, true⟩ :: rest
    else b :: splitChain rest a req

/-- First half of `coalesce`: if the block at `a` has a free chain successor,
absorb it (`blk->size += header_size() + n->size;` and unlink `n`).  Returns
the new chain and the absorbed successor's address when a merge happened. -/
def mergeNext (c : List BlockH) (a : Nat) : List BlockH × Option Nat :=
  match c with
  | [] => ([], none)
  | b :: rest =>
    if b.addr = a then
      match rest with
      | n :: rest2 =>
        if n.free then
          ({ b with size := b.size + headerSize + n.size } :: rest2, some n.addr)
        else (b :: rest, none)
      | [] => ([b], none)
    else
      let r := mergeNext rest a
      (b :: r.1, r.2)

/-- Second half of `coalesce`: if the block at `a` has a free chain
predecessor, the predecessor absorbs it and survives.  Returns the new chain
and the surviving predecessor's address when a merge happened. -/
def mergePrev (c : List BlockH) (a : Nat) : List BlockH × Option Nat :=
  match c with
  | p :: b :: rest =>
    if b.addr = a then
      if p.free then
        ({ p with size := p.size + headerSize + b.size } :: rest, some p.addr)
      else (p :: b :: rest, none)
    else
      let r := mergePrev (b :: rest) a
      (p :: r.1, r.2)
  | c => (c, none)

/-- Unconditional forward absorption used inline by `j_realloc`'s grow path:
`blk->size += header_size() + n->size;` and unlink `n`. -/
def absorbNext (c : List BlockH) (a : Nat) : List BlockH :=
  match c with
  | [] => []
  | b :: rest =>
    if b.addr = a then
      match rest with
      | n :: rest2 => { b with size := b.size + headerSize + n.size } :: rest2
      | [] => [b]
    else b :: absorbNext rest a

/-- `coalesce(blk)`: merge with the free chain successor, then merge into the
free chain predecessor; each merge credits `header_size()` to `g_free_bytes`.
Returns the surviving block's address as the C function returns its pointer. -/
def coalesce (st : AState) (a : Nat) : AState × Nat :=
  let r1 := mergeNext st.chain a
  let st1 : AState :=
    { st with
      chain := r1.1,
      freeTally := st.freeTally + (if r1.2.isSome then headerSize else 0),
      stale := match r1.2 with | some x => x :: st.stale | none => st.stale }
  let r2 := mergePrev st1.chain a
  match r2.2 with
  | some pa =>
    ({ st1 with
       chain := r2.1,
       freeTally := st1.freeTally + headerSize,
       stale := a :: st1.stale }, pa)
  | none => (st1, a)

/-- `split_block(blk, req)`: shrink the block at `a` to payload `req`, write a
fresh free header at `a + header_size() + req` (clobbering those bytes), and
credit the remainder's payload size to `g_free_bytes`. -/
def split_block (st : AState) (a req : Nat) : AState :=
  match lookupBlock st.chain a with
  | none => st
  | some b =>
    { st with
      chain := splitChain st.chain a req,
      freeTally := st.freeTally + (b.size - req - headerSize),
      mem := clobber st.mem (a + headerSize + req) headerSize }

/-- `arena_total` computed by `request_space`:
`arena_header_size() + (need > ARENA_MIN_SIZE ? need : ARENA_MIN_SIZE)`
with `need = header_size() + size`. -/
def arenaTotalFor (size : Nat) : Nat :=
  arenaHeaderSize +
    (if headerSize + size > ARENA_MIN_SIZE then headerSize + size else ARENA_MIN_SIZE)

/-- `find_first_fit(size)`: first chain block that is free with payload ≥ size. -/
def find_first_fit (c : List BlockH) (size : Nat) : Option BlockH :=
  c.find? (fun b => b.free && decide (size ≤ b.size))

/-- `request_space(size)`: ask the Region Provider for a region of
`arena_total` bytes (`grant` is the base it returns, `none` on exhaustion),
install the arena header, append one used block of payload `size` at the chain
tail, and carve a trailing free block out of the slack when at least one more
header plus one alignment unit fits. -/
def request_space (st : AState) (size : Nat) (grant : Option Nat) :
    Option (AState × Nat) :=
  let arena_total := arenaTotalFor size
  match grant with
  | none => none
  | some base =>
    let blkAddr := base + arenaHeaderSize
    let blk : BlockH := ⟨blkAddr, size, false⟩
    let a : Arena := ⟨base, arena_total, blkAddr⟩
    let used := arenaHeaderSize + headerSize + size
    let mem1 := clobber (clobber st.mem base arenaHeaderSize) blkAddr headerSize
    if used + headerSize + ALIGNMENT ≤ arena_total then
      let faddr := blkAddr + headerSize + size
      let f : BlockH := ⟨faddr, arena_total - used - headerSize, true⟩
      some ({ st with
              arenas := a :: st.arenas,
              chain := st.chain ++ [blk, f],
              totalBytes := st.totalBytes + arena_total,
              freeTally := st.freeTally + f.size,
              mem := clobber mem1 faddr headerSize }, blkAddr)
    else
      some ({ st with
              arenas := a :: st.arenas,
              chain := st.chain ++ [blk],
              totalBytes := st.totalBytes + arena_total,
              mem := mem1 }, blkAddr)

/-- `j_malloc(size)`: reject 0, align the request, first-fit search; on a hit
split when the slack clears the threshold, mark the block used and debit the
pre-split size from `g_free_bytes`; on a miss grow via `request_space`.
Returns the new state and the payload pointer (`none` for `NULL`). -/
def j_malloc (st : AState) (size : Nat) (grant : Option Nat) :
    AState × Option Nat :=
  if size = 0 then (st, none)
  else
    let size := alignUp size ALIGNMENT
    match find_first_fit st.chain size with
    | none =>
      match request_space st size grant with
      | none => (st, none)
      | some (st1, baddr) => (st1, some (baddr + headerSize))
    | some blk =>
      let old_size := blk.size
      let st1 :=
        if size + headerSize + ALIGNMENT ≤ old_size then split_block st blk.addr size
        else st
      let st2 : AState :=
        { st1 with
          chain := setFreeFlag st1.chain blk.addr false,
          freeTally := st1.freeTally - old_size }
      (st2, some (blk.addr + headerSize))

/-- `j_free(ptr)`: no-op on `NULL`; recover the header at `ptr - header_size()`;
no-op if it is already free (also when it is a stale unlinked header, whose
free flag still reads 1); otherwise mark free, credit `g_free_bytes`, coalesce. -/
def j_free (st : AState) (p : Nat) : Option AState :=
  if p = 0 then some st
  else
    let a := p - headerSize
    match lookupBlock st.chain a with
    | some blk =>
      if blk.free then some st
      else
        let st1 : AState :=
          { st with
            chain := setFreeFlag st.chain a true,
            freeTally := st.freeTally + blk.size }
        some (coalesce st1 a).1
    | none => if a ∈ st.stale then some st else none

/-- The relocate path of `j_realloc`: fresh `j_malloc`, on failure return
`NULL` with the state j_malloc left, else copy `min(old_size, new_size)`
payload bytes, free the old block, return the new payload pointer. -/
def reallocMove (st : AState) (p old_size new_size : Nat) (grant : Option Nat) :
    Option (AState × Option Nat) :=
  let r := j_malloc st new_size grant
  match r.2 with
  | none => some (r.1, none)
  | some q =>
    let keep := if old_size < new_size then old_size else new_size
    let st2 : AState := { r.1 with mem := copyBytes r.1.mem q p keep }
    (j_free st2 p).map (fun st3 => (st3, some q))

/-- `j_realloc(ptr, new_size)`: `NULL` behaves as malloc; size 0 behaves as
free returning `NULL`; otherwise align and locate the block: shrink/fit in
place (splitting when worthwhile), else absorb a free chain successor when the
combined payload suffices (splitting any excess), else relocate. -/
def j_realloc (st : AState) (p : Nat) (new_size : Nat) (grant : Option Nat) :
    Option (AState × Option Nat) :=
  if p = 0 then some (j_malloc st new_size grant)
  else if new_size = 0 then (j_free st p).map (fun st1 => (st1, none))
  else
    let ns := alignUp new_size ALIGNMENT
    let a := p - headerSize
    match lookupBlock st.chain a with
    | none => none
    | some blk =>
      let old_size := blk.size
      if ns ≤ old_size then
        let st1 :=
          if ns + headerSize + ALIGNMENT ≤ old_size then split_block st a ns else st
        some (st1, some p)
      else
        match nextOf st.chain a with
        | some n =>
          if n.free = true ∧ ns ≤ old_size + headerSize + n.size then
            let st1 : AState :=
              { st with
                chain := absorbNext st.chain a,
                freeTally := st.freeTally - n.size,
                stale := n.addr :: st.stale }
            let merged := old_size + headerSize + n.size
            let st2 :=
              if ns + headerSize + ALIGNMENT ≤ merged then split_block st1 a ns else st1
            some (st2, some (a + headerSize))
          else reallocMove st p old_size ns grant
        | none => reallocMove st p old_size ns grant

/-- `j_heap_bytes()`: the running total of bytes recorded for all arenas. -/
def j_heap_bytes (st : AState) : Nat := st.totalBytes

/-- `j_free_bytes()`: full chain scan summing the payload sizes of free blocks. -/
def j_free_bytes (st : AState) : Nat :=
  st.chain.foldl (fun s b => if b.free then s + b.size else s) 0

/-- One public operation together with the Region Provider's response for the
single `os_alloc` call it can make. -/
inductive Op where
  | malloc (size : Nat) (grant : Option Nat)
  | free (p : Nat)
  | realloc (p : Nat) (size : Nat) (grant : Option Nat)
  | heapBytes
  | freeBytes

/-- The Region Provider contract (`mmap`): any region it grants is
page-aligned. -/
def Op.grantsAligned : Op → Nat → Prop
  | .malloc _ (some b), ps => b % ps = 0
  | .realloc _ _ (some b), ps => b % ps = 0
  | _, _ => True

/-- Effect of one public operation on the state (`none` = the C program hit
undefined behaviour).  The two queries read but never write. -/
def step (st : AState) (op : Op) : Option AState :=
  match op with
  | .malloc s g => some (j_malloc st s g).1
  | .free p => j_free st p
  | .realloc p s g => (j_realloc st p s g).map (fun r => r.1)
  | .heapBytes => some st
  | .freeBytes => some st

/-- States reachable from the empty allocator by public operations, under the
platform contract that the page size is a positive multiple of 8 and every
granted region is page-aligned. -/
inductive Reachable : AState → Prop where
  | init (ps : Nat) (h8 : ps % 8 = 0) (hpos : 0 < ps) : Reachable (initState ps)
  | step {st st' : AState} {op : Op} (h : Reachable st)
      (hg : Op.grantsAligned op st.ps) (hs : step st op = some st') : Reachable st'

/-- Spec-side recomputation of the free-byte figure, following the spec's
words: the sum of the payload sizes of the blocks in the global chain that are
currently marked free.  Compared with `j_free_bytes` for the refinement claim. -/
def freeScanSpec (st : AState) : Nat :=
  ((st.chain.filter (fun b => b.free)).map (fun b => b.size)).sum

/-- Two chain-adjacent blocks both marked free exist in the chain. -/
def adjacentFreePair : List BlockH → Bool
  | b1 :: b2 :: rest => (b1.free && b2.free) || adjacentFreePair (b2 :: rest)
  | _ => false

/-- Blocks whose byte extents (header plus payload) do not overlap. -/
def blocksApart (b1 b2 : BlockH) : Prop :=
  b1.addr + headerSize + b1.size ≤ b2.addr ∨ b2.addr + headerSize + b2.size ≤ b1.addr

/-- Pairwise disjointness of the byte extents of the chain's blocks. -/
def ChainSeparated (c : List BlockH) : Prop := c.Pairwise blocksApart

/-- A block record whose address and payload size respect the 8-byte alignment
unit and that leaves room for a header below its address. -/
def goodBlock (b : BlockH) : Prop :=
  b.addr % 8 = 0 ∧ b.size % 8 = 0 ∧ 32 ≤ b.addr

/-- All blocks of a chain are `goodBlock`s. -/
def goodChain (c : List BlockH) : Prop := ∀ b ∈ c, goodBlock b

/-- Alignment invariant of reachable states: the page size is a positive
multiple of 8 and every chain block is aligned. -/
def AlignInv (st : AState) : Prop :=
  st.ps % 8 = 0 ∧ 0 < st.ps ∧ goodChain st.chain

/-- Concrete trace, first step: `j_malloc(512)` on the empty allocator with the
Region Provider granting a region at base 0. -/
def shrinkTrace1 : AState := (j_malloc (initState 8) 512 (some 0)).1

/-- Concrete trace, second step: a second `j_malloc(512)` splits the trailing
free block; its payload lives at address 608. -/
def shrinkTrace2 : AState := (j_malloc shrinkTrace1 512 none).1

/-- Concrete trace, third step: `j_realloc(608, 64)` shrinks the second block
in place, splitting off a free remainder in front of the free tail block. -/
def shrinkTrace3 : AState :=
  (((j_realloc shrinkTrace2 608 64 none).map (fun r => r.1)).getD (initState 8))

/-- The free-block scan loop of `j_free_bytes`, as a fold, equals the
filter-map-sum the spec describes, for any accumulator. -/
theorem foldl_free_sum (c : List BlockH) (acc : Nat) :
    c.foldl (fun s b => if b.free then s + b.size else s) acc =
      acc + ((c.filter (fun b => b.free)).map (fun b => b.size)).sum := by
  induction c generalizing acc with
  | nil => simp
  | cons b rest ih =>
    by_cases hb : b.free
    · simp [hb, ih]
      omega
    · simp [hb, ih]

/-- C1: for every reachable allocator state, `free_bytes()` returns exactly
the sum of the payload sizes of the chain blocks currently marked free, the
value an independent full scan of the chain computes. -/
theorem free_bytes_matches_scan (st : AState) (_h : Reachable st) :
    j_free_bytes st = freeScanSpec st := by
  unfold j_free_bytes freeScanSpec
  simpa using foldl_free_sum st.chain 0

/-- Witness for C1 at a concrete reachable state. -/
theorem free_bytes_matches_scan_witness :
    j_free_bytes (initState 4096) = freeScanSpec (initState 4096) :=
  free_bytes_matches_scan _ (Reachable.init 4096 (by decide) (by decide))

/-- C4 counterexample: on a platform with 4096-byte pages, after the very
first allocation (8 bytes ≤ 1 MiB) from the empty allocator, `total_bytes()`
is 1048608 — the arena header plus the unrounded 1 MiB growth unit — and not
the page-rounded growth unit 1048576 the claim states. -/
theorem first_alloc_total_not_rounded_unit :
    j_heap_bytes (j_malloc (initState 4096) 8 (some 0)).1 = 1048608 ∧
    osRound ARENA_MIN_SIZE 4096 = 1048576 ∧ (1048608 : Nat) ≠ 1048576 :=
  ⟨by decide, by decide, by decide⟩

/-- C4 as amended: after the very first allocation of any size `s` with
`header_size() + align_up(s) ≤ 1 MiB`, `total_bytes()` equals
`arena_header_size() + 1 MiB` with no page rounding applied to the recorded
figure; in general a new arena adds `arena_header_size()` plus the larger of
the header+block need and the 1 MiB minimum to `total_bytes()` (the Region
Provider rounds the actual mapping, not this counter). -/
theorem request_space_total (st st1 : AState) (sz a : Nat) (g : Option Nat)
    (h : request_space st sz g = some (st1, a)) :
    st1.totalBytes = st.totalBytes + arenaTotalFor sz := by
  simp only [request_space] at h
  split at h
  · simp at h
  · split at h
    all_goals
      simp only [Option.some.injEq, Prod.mk.injEq] at h
      rw [← h.1]

theorem request_space_grant_some (st : AState) (sz base : Nat) :
    ∃ st1 a, request_space st sz (some base) = some (st1, a) := by
  simp only [request_space]
  by_cases hc :
      arenaHeaderSize + headerSize + sz + headerSize + ALIGNMENT ≤ arenaTotalFor sz
  · rw [if_pos hc]
    exact ⟨_, _, rfl⟩
  · rw [if_neg hc]
    exact ⟨_, _, rfl⟩

theorem j_malloc_empty_chain (st : AState) (hc : st.chain = []) (s : Nat)
    (hs : s ≠ 0) (g : Option Nat) :
    j_malloc st s g =
      match request_space st (alignUp s ALIGNMENT) g with
      | none => (st, none)
      | some (st1, baddr) => (st1, some (baddr + headerSize)) := by
  unfold j_malloc find_first_fit
  rw [if_neg hs, hc]
  rfl

theorem first_alloc_total_amended (ps s base : Nat) (hs : s ≠ 0)
    (hsmall : headerSize + alignUp s ALIGNMENT ≤ ARENA_MIN_SIZE) :
    j_heap_bytes (j_malloc (initState ps) s (some base)).1 =
      arenaHeaderSize + ARENA_MIN_SIZE ∧
    (∀ (st st1 : AState) (sz a : Nat),
      request_space st sz (some base) = some (st1, a) →
      st1.totalBytes = st.totalBytes + arenaTotalFor sz) := by
  refine ⟨?_, fun st st1 sz a h => request_space_total st st1 sz a (some base) h⟩
  have harena : arenaTotalFor (alignUp s ALIGNMENT) =
      arenaHeaderSize + ARENA_MIN_SIZE := by
    unfold arenaTotalFor
    rw [if_neg]
    omega
  obtain ⟨st1, a, hr⟩ := request_space_grant_some (initState ps) (alignUp s ALIGNMENT) base
  have ht := request_space_total (initState ps) st1 (alignUp s ALIGNMENT) a (some base) hr
  rw [j_malloc_empty_chain (initState ps) rfl s hs (some base), hr]
  show st1.totalBytes = arenaHeaderSize + ARENA_MIN_SIZE
  rw [ht, harena]
  exact Nat.zero_add _

/-- Witness for the amended C4 at a concrete input. -/
theorem first_alloc_total_amended_witness :
    j_heap_bytes (j_malloc (initState 4096) 8 (some 0)).1 =
      arenaHeaderSize + ARENA_MIN_SIZE :=
  (first_alloc_total_amended 4096 8 0 (by decide) (by decide)).1

/-- C10: two chain-adjacent free blocks are reachable.  The trace allocates
512 bytes twice (the second allocation splits the trailing free block of the
arena) and then shrinks the second block in place with `j_realloc(608, 64)`;
the shrink path splits without coalescing, leaving the new free remainder
chain-adjacent to the free tail block. -/
theorem shrink_split_leaves_adjacent_free :
    Reachable shrinkTrace3 ∧ adjacentFreePair shrinkTrace3.chain = true := by
  constructor
  · have h0 : Reachable (initState 8) := Reachable.init 8 (by decide) (by decide)
    have h1 : Reachable shrinkTrace1 :=
      @Reachable.step (initState 8) shrinkTrace1 (Op.malloc 512 (some 0)) h0 rfl rfl
    have h2 : Reachable shrinkTrace2 :=
      @Reachable.step shrinkTrace1 shrinkTrace2 (Op.malloc 512 none) h1 trivial rfl
    exact @Reachable.step shrinkTrace2 shrinkTrace3 (Op.realloc 608 64 none) h2 trivial rfl
  · decide

/-- `split_block` never touches `g_total_bytes`. -/
theorem split_block_totalBytes (st : AState) (a req : Nat) :
    (split_block st a req).totalBytes = st.totalBytes := by
  unfold split_block
  split <;> rfl

/-- `coalesce` never touches `g_total_bytes`. -/
theorem coalesce_totalBytes (st : AState) (a : Nat) :
    (coalesce st a).1.totalBytes = st.totalBytes := by
  unfold coalesce
  dsimp only
  split <;> rfl

/-- A failed `j_malloc` (returning `NULL`) leaves the state exactly as it was. -/
theorem j_malloc_none_pair (st : AState) (s : Nat) (g : Option Nat) :
    (j_malloc st s g).2 = none → j_malloc st s g = (st, none) := by
  unfold j_malloc
  dsimp only
  split
  · intro _
    rfl
  · split
    · split
      · intro _
        rfl
      · intro h
        exact absurd h (by simp)
    · intro h
      exact absurd h (by simp)

/-- `j_malloc` never decreases `g_total_bytes`. -/
theorem j_malloc_totalBytes_ge (st : AState) (s : Nat) (g : Option Nat) :
    st.totalBytes ≤ (j_malloc st s g).1.totalBytes := by
  unfold j_malloc
  dsimp only
  split
  · exact Nat.le_refl _
  · split
    · split
      · exact Nat.le_refl _
      · rename_i st1 baddr heq
        rw [show ((st1, some (baddr + headerSize)) : AState × Option Nat).1 = st1 from rfl,
          request_space_total st st1 _ baddr g heq]
        exact Nat.le_add_right _ _
    · rename_i blk heq
      show st.totalBytes ≤
        (if alignUp s ALIGNMENT + headerSize + ALIGNMENT ≤ blk.size then
            split_block st blk.addr (alignUp s ALIGNMENT)
          else st).totalBytes
      split
      · rw [split_block_totalBytes]
      · exact Nat.le_refl _

/-- `j_free` never changes `g_total_bytes`. -/
theorem j_free_totalBytes (st st1 : AState) (p : Nat) :
    j_free st p = some st1 → st1.totalBytes = st.totalBytes := by
  unfold j_free
  dsimp only
  split
  · intro h
    cases h
    rfl
  · split
    · split
      · intro h
        cases h
        rfl
      · intro h
        cases h
        rw [coalesce_totalBytes]
    · split
      · intro h
        cases h
        rfl
      · intro h
        exact absurd h (by simp)

/-- `j_realloc` never decreases `g_total_bytes`. -/
theorem j_realloc_totalBytes_ge (st st1 : AState) (r : Option Nat)
    (p s : Nat) (g : Option Nat) :
    j_realloc st p s g = some (st1, r) → st.totalBytes ≤ st1.totalBytes := by
  unfold j_realloc
  dsimp only
  split
  · intro h
    injection h with h2
    have h3 : (j_malloc st s g).1 = st1 := by rw [h2]
    rw [← h3]
    exact j_malloc_totalBytes_ge st s g
  · split
    · intro h
      rw [Option.map_eq_some'] at h
      obtain ⟨st2, hfr, hpair⟩ := h
      have h3 : st2 = st1 := congrArg Prod.fst hpair
      rw [← h3]
      exact Nat.le_of_eq (j_free_totalBytes st st2 p hfr).symm
    · split
      · intro h
        exact absurd h (by simp)
      · split
        · intro h
          simp only [Option.some.injEq, Prod.mk.injEq] at h
          rw [← h.1]
          split
          · rw [split_block_totalBytes]
          · exact Nat.le_refl _
        · split
          · split
            · intro h
              simp only [Option.some.injEq, Prod.mk.injEq] at h
              rw [← h.1]
              split
              · rw [split_block_totalBytes]
              · exact Nat.le_refl _
            · unfold reallocMove
              dsimp only
              split
              · intro h
                simp only [Option.some.injEq, Prod.mk.injEq] at h
                rw [← h.1]
                exact j_malloc_totalBytes_ge st _ g
              · intro h
                rw [Option.map_eq_some'] at h
                obtain ⟨st3, hfr, hpair⟩ := h
                have h3 : st3 = st1 := congrArg Prod.fst hpair
                rw [← h3, j_free_totalBytes _ st3 p hfr]
                exact j_malloc_totalBytes_ge st _ g
          · unfold reallocMove
            dsimp only
            split
            · intro h
              simp only [Option.some.injEq, Prod.mk.injEq] at h
              rw [← h.1]
              exact j_malloc_totalBytes_ge st _ g
            · intro h
              rw [Option.map_eq_some'] at h
              obtain ⟨st3, hfr, hpair⟩ := h
              have h3 : st3 = st1 := congrArg Prod.fst hpair
              rw [← h3, j_free_totalBytes _ st3 p hfr]
              exact j_malloc_totalBytes_ge st _ g

/-- C9: `total_bytes()` and `free_bytes()` are pure queries — the query
operations return the state unmodified — and `total_bytes()` is monotonically
non-decreasing across every public operation. -/
theorem queries_pure_total_monotone :
    (∀ st : AState, step st Op.heapBytes = some st ∧ step st Op.freeBytes = some st) ∧
    (∀ (st st' : AState) (op : Op), step st op = some st' →
      j_heap_bytes st ≤ j_heap_bytes st') := by
  constructor
  · intro st
    exact ⟨rfl, rfl⟩
  · intro st st' op h
    cases op with
    | malloc s g =>
      cases h
      exact j_malloc_totalBytes_ge st s g
    | free p =>
      exact Nat.le_of_eq (j_free_totalBytes st st' p h).symm
    | realloc p s g =>
      unfold step at h
      rw [Option.map_eq_some'] at h
      obtain ⟨pr, hr, hfst⟩ := h
      rw [← hfst]
      exact j_realloc_totalBytes_ge st pr.1 pr.2 p s g (by rw [hr])
    | heapBytes =>
      cases h
      exact Nat.le_refl _
    | freeBytes =>
      cases h
      exact Nat.le_refl _

/-- Witness for C9's monotonicity at a concrete step. -/
theorem queries_pure_total_monotone_witness :
    j_heap_bytes (initState 4096) ≤
      j_heap_bytes ((j_malloc (initState 4096) 8 (some 0)).1) :=
  queries_pure_total_monotone.2 (initState 4096)
    ((j_malloc (initState 4096) 8 (some 0)).1) (Op.malloc 8 (some 0)) rfl

/-- C6: with a non-null pointer and a non-zero size, `j_realloc` returns
`NULL` only when the fresh allocation of the (aligned) requested size fails,
and in that case the whole allocator state — chain, block sizes and flags,
payload bytes, counters, arenas — is exactly as before the call. -/
theorem relocate_fail_state_unchanged (st st' : AState) (p s : Nat)
    (g : Option Nat) (hp : p ≠ 0) (hs : s ≠ 0) :
    j_realloc st p s g = some (st', none) →
    st' = st ∧ (j_malloc st (alignUp s ALIGNMENT) g).2 = none := by
  unfold j_realloc
  rw [if_neg hp, if_neg hs]
  dsimp only
  split
  · intro h
    exact absurd h (by simp)
  · split
    · intro h
      exact absurd h (by simp)
    · split
      · split
        · intro h
          exact absurd h (by simp)
        · unfold reallocMove
          dsimp only
          split
          · rename_i heq
            intro h
            simp only [Option.some.injEq, Prod.mk.injEq] at h
            refine ⟨?_, heq⟩
            rw [← h.1, congrArg Prod.fst (j_malloc_none_pair st _ g heq)]
          · intro h
            rw [Option.map_eq_some'] at h
            obtain ⟨st3, -, hpair⟩ := h
            exact absurd (congrArg Prod.snd hpair) (by simp)
      · unfold reallocMove
        dsimp only
        split
        · rename_i heq
          intro h
          simp only [Option.some.injEq, Prod.mk.injEq] at h
          refine ⟨?_, heq⟩
          rw [← h.1, congrArg Prod.fst (j_malloc_none_pair st _ g heq)]
        · intro h
          rw [Option.map_eq_some'] at h
          obtain ⟨st3, -, hpair⟩ := h
          exact absurd (congrArg Prod.snd hpair) (by simp)

/-- Witness for C6: a state with a single used block and an exhausted Region
Provider; the relocate path fails and returns the state untouched. -/
theorem relocate_fail_state_unchanged_witness :
    let st : AState :=
      { ps := 4096, arenas := [⟨0, 64, 32⟩], chain := [⟨32, 8, false⟩],
        totalBytes := 64, freeTally := 0, mem := fun _ => 0, stale := [] }
    ∃ st', j_realloc st 64 16 none = some (st', none) ∧ st' = st ∧
      (j_malloc st (alignUp 16 ALIGNMENT) none).2 = none := by
  intro st
  refine ⟨st, rfl, relocate_fail_state_unchanged st st 64 16 none
    (by decide) (by decide) rfl⟩

/-- C5: every `j_realloc` on a valid non-null pointer with positive size that
is satisfied in place — payload already large enough, or a free chain
successor whose absorption covers the rounded request — returns the same
payload address it was given. -/
theorem inplace_resize_same_address (st : AState) (p s : Nat) (blk : BlockH)
    (g : Option Nat) (hp : 32 ≤ p) (hs : s ≠ 0)
    (hlook : lookupBlock st.chain (p - headerSize) = some blk)
    (hcase : alignUp s ALIGNMENT ≤ blk.size ∨
      ∃ n, nextOf st.chain (p - headerSize) = some n ∧ n.free = true ∧
        alignUp s ALIGNMENT ≤ blk.size + headerSize + n.size) :
    ∃ st', j_realloc st p s g = some (st', some p) := by
  have hp0 : p ≠ 0 := by omega
  have hback : p - headerSize + headerSize = p := by
    simp only [headerSize]
    omega
  unfold j_realloc
  rw [if_neg hp0, if_neg hs]
  dsimp only
  rw [hlook]
  dsimp only
  by_cases h1 : alignUp s ALIGNMENT ≤ blk.size
  · rw [if_pos h1]
    exact ⟨_, rfl⟩
  · rcases hcase with hc | ⟨n, hn, hnf, hge⟩
    · exact absurd hc h1
    · rw [if_neg h1, hn]
      dsimp only
      rw [if_pos ⟨hnf, hge⟩, hback]
      exact ⟨_, rfl⟩

/-- Witness for C5: growing a block into its free chain successor returns the
original address 64. -/
theorem inplace_resize_same_address_witness :
    ∃ st', j_realloc
      { ps := 4096, arenas := [⟨0, 256, 32⟩],
        chain := [⟨32, 64, false⟩, ⟨128, 64, true⟩],
        totalBytes := 256, freeTally := 64, mem := fun _ => 0, stale := [] }
      64 100 none = some (st', some 64) :=
  inplace_resize_same_address _ 64 100 ⟨32, 64, false⟩ none (by decide)
    (by decide) rfl (Or.inr ⟨⟨128, 64, true⟩, rfl, rfl, by decide⟩)

/-- Unfolding equation: lookup on a cons cell. -/
theorem lookupBlock_cons (x : BlockH) (rest : List BlockH) (a : Nat) :
    lookupBlock (x :: rest) a =
      if x.addr = a then some x else lookupBlock rest a := rfl

/-- Unfolding equation: `mergeNext` skipping a non-matching head. -/
theorem mergeNext_cons_ne (b : BlockH) (rest : List BlockH) (a : Nat)
    (hb : b.addr ≠ a) :
    mergeNext (b :: rest) a =
      (b :: (mergeNext rest a).1, (mergeNext rest a).2) := by
  conv_lhs => rw [mergeNext.eq_def]
  dsimp only
  rw [if_neg hb]

/-- Unfolding equation: `mergeNext` at the tail block (no successor). -/
theorem mergeNext_last (b : BlockH) (a : Nat) (hb : b.addr = a) :
    mergeNext [b] a = ([b], none) := by
  unfold mergeNext
  rw [if_pos hb]

/-- Unfolding equation: `mergeNext` absorbing a free successor. -/
theorem mergeNext_hit_free (b n : BlockH) (rest2 : List BlockH) (a : Nat)
    (hb : b.addr = a) (hn : n.free = true) :
    mergeNext (b :: n :: rest2) a =
      ({ b with size := b.size + headerSize + n.size } :: rest2, some n.addr) := by
  unfold mergeNext
  rw [if_pos hb]
  dsimp only
  rw [if_pos hn]

/-- Unfolding equation: `mergeNext` leaving a used successor alone. -/
theorem mergeNext_hit_used (b n : BlockH) (rest2 : List BlockH) (a : Nat)
    (hb : b.addr = a) (hn : n.free = false) :
    mergeNext (b :: n :: rest2) a = (b :: n :: rest2, none) := by
  unfold mergeNext
  rw [if_pos hb]
  dsimp only
  rw [if_neg (by rw [hn]; exact Bool.false_ne_true)]

/-- Unfolding equation: `mergePrev` skipping when the second cell mismatches. -/
theorem mergePrev_cons_skip (p b : BlockH) (rest : List BlockH) (a : Nat)
    (hb : b.addr ≠ a) :
    mergePrev (p :: b :: rest) a =
      (p :: (mergePrev (b :: rest) a).1, (mergePrev (b :: rest) a).2) := by
  conv_lhs => rw [mergePrev.eq_def]
  dsimp only
  rw [if_neg hb]

/-- Unfolding equation: `mergePrev` merging into a free predecessor. -/
theorem mergePrev_hit_free (p b : BlockH) (rest : List BlockH) (a : Nat)
    (hb : b.addr = a) (hp : p.free = true) :
    mergePrev (p :: b :: rest) a =
      ({ p with size := p.size + headerSize + b.size } :: rest, some p.addr) := by
  unfold mergePrev
  rw [if_pos hb, if_pos hp]

/-- Unfolding equation: `mergePrev` with a used predecessor. -/
theorem mergePrev_hit_used (p b : BlockH) (rest : List BlockH) (a : Nat)
    (hb : b.addr = a) (hp : p.free = false) :
    mergePrev (p :: b :: rest) a = (p :: b :: rest, none) := by
  unfold mergePrev
  rw [if_pos hb]
  rw [if_neg (by rw [hp]; exact Bool.false_ne_true)]

/-- `setFreeFlag` does not move any header address. -/
theorem setFreeFlag_map_addr (c : List BlockH) (a : Nat) (v : Bool) :
    (setFreeFlag c a v).map BlockH.addr = c.map BlockH.addr := by
  induction c with
  | nil => rfl
  | cons b rest ih =>
    unfold setFreeFlag
    by_cases hb : b.addr = a
    · rw [if_pos hb]
      rfl
    · rw [if_neg hb]
      simp [ih]

/-- Looking up the address whose free flag was just written returns the
updated record. -/
theorem lookup_setFreeFlag (c : List BlockH) (a : Nat) (v : Bool) :
    lookupBlock (setFreeFlag c a v) a =
      (lookupBlock c a).map (fun b => { b with free := v }) := by
  induction c with
  | nil => rfl
  | cons b rest ih =>
    unfold setFreeFlag
    by_cases hb : b.addr = a
    · rw [if_pos hb]
      simp [lookupBlock_cons, hb]
    · rw [if_neg hb]
      simp [lookupBlock_cons, hb, ih]

/-- The addresses of the chain after `mergeNext` are a sublist of the old ones. -/
theorem mergeNext_addr_sublist (c : List BlockH) (a : Nat) :
    ((mergeNext c a).1.map BlockH.addr).Sublist (c.map BlockH.addr) := by
  induction c with
  | nil => exact List.Sublist.refl _
  | cons b rest ih =>
    by_cases hb : b.addr = a
    · cases rest with
      | nil =>
        rw [mergeNext_last b a hb]
      | cons n rest2 =>
        by_cases hn : n.free
        · rw [mergeNext_hit_free b n rest2 a hb hn]
          exact List.Sublist.cons₂ _ (List.sublist_cons_self _ _)
        · rw [mergeNext_hit_used b n rest2 a hb (Bool.not_eq_true _ ▸ hn)]
    · rw [mergeNext_cons_ne b rest a hb]
      exact List.Sublist.cons₂ _ ih

/-- `mergeNext` keeps a record at the target address, with the same address
and free flag. -/
theorem mergeNext_lookup (c : List BlockH) (a : Nat) (b : BlockH)
    (h : lookupBlock c a = some b) :
    ∃ b2, lookupBlock (mergeNext c a).1 a = some b2 ∧
      b2.free = b.free ∧ b2.addr = b.addr := by
  induction c with
  | nil => exact absurd h (by simp [lookupBlock])
  | cons x rest ih =>
    rw [lookupBlock_cons] at h
    by_cases hx : x.addr = a
    · rw [if_pos hx, Option.some_inj] at h
      subst h
      cases rest with
      | nil =>
        rw [mergeNext_last x a hx]
        exact ⟨x, by rw [lookupBlock_cons, if_pos hx], rfl, rfl⟩
      | cons n rest2 =>
        by_cases hn : n.free
        · rw [mergeNext_hit_free x n rest2 a hx hn]
          refine ⟨{ x with size := x.size + headerSize + n.size }, ?_, rfl, rfl⟩
          rw [lookupBlock_cons]
          dsimp only
          rw [if_pos hx]
        · rw [mergeNext_hit_used x n rest2 a hx (Bool.not_eq_true _ ▸ hn)]
          exact ⟨x, by rw [lookupBlock_cons, if_pos hx], rfl, rfl⟩
    · rw [if_neg hx] at h
      obtain ⟨b2, hb2, hf, ha⟩ := ih h
      rw [mergeNext_cons_ne x rest a hx]
      exact ⟨b2, by rw [lookupBlock_cons, if_neg hx]; exact hb2, hf, ha⟩

/-- A lookup over a chain whose addresses all differ from `a` finds nothing. -/
theorem lookup_none_of_absent (c : List BlockH) (a : Nat)
    (h : ∀ x ∈ c, x.addr ≠ a) : lookupBlock c a = none := by
  induction c with
  | nil => rfl
  | cons b rest ih =>
    rw [lookupBlock_cons, if_neg (h b (List.mem_cons_self b rest))]
    exact ih (fun x hx => h x (List.mem_cons_of_mem b hx))

/-- `mergePrev` on a chain that does not carry the target address is inert. -/
theorem mergePrev_absent (c : List BlockH) (a : Nat)
    (h : ∀ x ∈ c, x.addr ≠ a) : mergePrev c a = (c, none) := by
  induction c with
  | nil => rfl
  | cons p rest ih =>
    cases rest with
    | nil => rfl
    | cons b rest2 =>
      rw [mergePrev_cons_skip p b rest2 a
        (h b (List.mem_cons_of_mem p (List.mem_cons_self b rest2)))]
      rw [ih (fun x hx => h x (List.mem_cons_of_mem p hx))]

/-- When `mergePrev` reports no merge it also left the chain unchanged. -/
theorem mergePrev_none_eq (c : List BlockH) (a : Nat)
    (h : (mergePrev c a).2 = none) : (mergePrev c a).1 = c := by
  induction c with
  | nil => rfl
  | cons p rest ih =>
    cases rest with
    | nil => rfl
    | cons b rest2 =>
      by_cases hb : b.addr = a
      · by_cases hp : p.free
        · rw [mergePrev_hit_free p b rest2 a hb hp] at h
          exact absurd h (by simp)
        · rw [mergePrev_hit_used p b rest2 a hb (Bool.not_eq_true _ ▸ hp)]
      · rw [mergePrev_cons_skip p b rest2 a hb] at h ⊢
        rw [ih h]

/-- After a `mergePrev` merge the target address is gone from the chain
(addresses being unique). -/
theorem mergePrev_some_lookup (c : List BlockH) (a pa : Nat)
    (hnd : (c.map BlockH.addr).Nodup)
    (h : (mergePrev c a).2 = some pa) :
    lookupBlock (mergePrev c a).1 a = none := by
  induction c with
  | nil => exact absurd h (by simp [mergePrev])
  | cons p rest ih =>
    cases rest with
    | nil => exact absurd h (by simp [mergePrev])
    | cons b rest2 =>
      rw [List.map_cons, List.nodup_cons] at hnd
      obtain ⟨hpmem, hnd2⟩ := hnd
      by_cases hb : b.addr = a
      · by_cases hp : p.free
        · rw [mergePrev_hit_free p b rest2 a hb hp] at h ⊢
          rw [lookupBlock_cons]
          have hpa : ({ p with size := p.size + headerSize + b.size } : BlockH).addr ≠ a := by
            dsimp only
            intro hcon
            apply hpmem
            rw [List.map_cons, hcon, ← hb]
            exact List.mem_cons_self _ _
          rw [if_neg hpa]
          refine lookup_none_of_absent rest2 a (fun x hx hxa => ?_)
          rw [List.map_cons, List.nodup_cons] at hnd2
          exact hnd2.1 ((show x.addr = b.addr from hxa.trans hb.symm) ▸
            List.mem_map_of_mem BlockH.addr hx)
        · rw [mergePrev_hit_used p b rest2 a hb (Bool.not_eq_true _ ▸ hp)] at h
          exact absurd h (by simp)
      · rw [mergePrev_cons_skip p b rest2 a hb] at h ⊢
        dsimp only at h ⊢
        by_cases hpa : p.addr = a
        · exfalso
          have habs : ∀ x ∈ b :: rest2, x.addr ≠ a := by
            intro x hx hxa
            apply hpmem
            rw [hpa, ← hxa]
            exact List.mem_map_of_mem BlockH.addr hx
          rw [mergePrev_absent _ a habs] at h
          simp at h
        · rw [lookupBlock_cons, if_neg hpa]
          exact ih hnd2 h

/-- After `coalesce` on a free block either a free record still answers for
the address, or the address was absorbed and is recorded as a stale header. -/
theorem coalesce_lookup_or (st : AState) (a : Nat) (b : BlockH)
    (hnd : (st.chain.map BlockH.addr).Nodup)
    (hb : lookupBlock st.chain a = some b) (hbf : b.free = true) :
    (∃ b2, lookupBlock (coalesce st a).1.chain a = some b2 ∧ b2.free = true) ∨
    (lookupBlock (coalesce st a).1.chain a = none ∧ a ∈ (coalesce st a).1.stale) := by
  unfold coalesce
  dsimp only
  obtain ⟨b2, hb2, hb2f, hb2a⟩ := mergeNext_lookup st.chain a b hb
  have hnd1 : ((mergeNext st.chain a).1.map BlockH.addr).Nodup :=
    (mergeNext_addr_sublist st.chain a).nodup hnd
  cases hm2 : (mergePrev (mergeNext st.chain a).1 a).2 with
  | none =>
    dsimp only
    exact Or.inl ⟨b2, hb2, hb2f.trans hbf⟩
  | some pa =>
    dsimp only
    refine Or.inr ⟨?_, List.mem_cons_self _ _⟩
    exact mergePrev_some_lookup _ a pa hnd1 hm2

/-- C7: `release` always succeeds and is idempotent — `release(null)` is a
no-op, and whenever a first `release(p)` succeeds, a second `release(p)` is a
silent no-op returning the state unchanged (the block either remains in the
chain marked free, or was absorbed leaving a stale header whose free flag
still reads set). -/
theorem release_idempotent (st : AState) (p : Nat)
    (hnd : (st.chain.map BlockH.addr).Nodup) :
    j_free st 0 = some st ∧
    ∀ st1, j_free st p = some st1 → j_free st1 p = some st1 := by
  refine ⟨rfl, ?_⟩
  intro st1 h
  by_cases hp : p = 0
  · subst hp
    unfold j_free at h
    rw [if_pos rfl] at h
    cases h
    rfl
  · unfold j_free at h
    rw [if_neg hp] at h
    dsimp only at h
    cases hl : lookupBlock st.chain (p - headerSize) with
    | none =>
      rw [hl] at h
      dsimp only at h
      by_cases hst : p - headerSize ∈ st.stale
      · rw [if_pos hst] at h
        cases h
        unfold j_free
        rw [if_neg hp]
        dsimp only
        rw [hl]
        dsimp only
        rw [if_pos hst]
      · rw [if_neg hst] at h
        exact absurd h (by simp)
    | some blk =>
      rw [hl] at h
      dsimp only at h
      by_cases hf : blk.free
      · rw [if_pos hf] at h
        cases h
        unfold j_free
        rw [if_neg hp]
        dsimp only
        rw [hl]
        dsimp only
        rw [if_pos hf]
      · rw [if_neg hf] at h
        cases h
        have hl2 : lookupBlock (setFreeFlag st.chain (p - headerSize) true)
            (p - headerSize) = some { blk with free := true } := by
          rw [lookup_setFreeFlag, hl]
          rfl
        have hnd2 : ((setFreeFlag st.chain (p - headerSize) true).map
            BlockH.addr).Nodup := by
          rw [setFreeFlag_map_addr]
          exact hnd
        rcases coalesce_lookup_or
            { st with
              chain := setFreeFlag st.chain (p - headerSize) true,
              freeTally := st.freeTally + blk.size }
            (p - headerSize) { blk with free := true } hnd2 hl2 rfl with
          ⟨b2, hb2, hb2f⟩ | ⟨hnone, hstale⟩
        · unfold j_free
          rw [if_neg hp]
          dsimp only
          rw [hb2]
          dsimp only
          rw [if_pos hb2f]
        · unfold j_free
          rw [if_neg hp]
          dsimp only
          rw [hnone]
          dsimp only
          rw [if_pos hstale]

/-- Witness for C7: releasing payload 64 of a single-block chain twice; the
second call returns the once-freed state unchanged. -/
theorem release_idempotent_witness :
    let st : AState :=
      { ps := 4096, arenas := [⟨0, 1024, 32⟩], chain := [⟨32, 64, false⟩],
        totalBytes := 1024, freeTally := 0, mem := fun _ => 0, stale := [] }
    j_free st 0 = some st ∧
    ∀ st1, j_free st 64 = some st1 → j_free st1 64 = some st1 := by
  intro st
  exact release_idempotent st 64 (by decide)

/-- `mergeNext` ignores a prefix that does not carry the target address. -/
theorem mergeNext_skip (pre c : List BlockH) (a : Nat)
    (hpre : ∀ w ∈ pre, w.addr ≠ a) :
    mergeNext (pre ++ c) a = (pre ++ (mergeNext c a).1, (mergeNext c a).2) := by
  induction pre with
  | nil => simp
  | cons z pre ih =>
    rw [List.cons_append,
      mergeNext_cons_ne z (pre ++ c) a (hpre z (List.mem_cons_self z pre)),
      ih (fun w hw => hpre w (List.mem_cons_of_mem z hw))]
    rfl

/-- `mergePrev` merging the target block into its free predecessor, after any
prefix that does not carry the target address. -/
theorem mergePrev_at_free (pre : List BlockH) (x b : BlockH) (post : List BlockH)
    (a : Nat) (hpre : ∀ w ∈ pre, w.addr ≠ a) (hx : x.addr ≠ a) (hb : b.addr = a)
    (hxf : x.free = true) :
    mergePrev (pre ++ x :: b :: post) a =
      (pre ++ { x with size := x.size + headerSize + b.size } :: post,
        some x.addr) := by
  induction pre with
  | nil =>
    simp only [List.nil_append]
    exact mergePrev_hit_free x b post a hb hxf
  | cons z pre ih =>
    have hz : z.addr ≠ a := hpre z (List.mem_cons_self z pre)
    have hpre2 : ∀ w ∈ pre, w.addr ≠ a :=
      fun w hw => hpre w (List.mem_cons_of_mem z hw)
    cases pre with
    | nil =>
      rw [List.cons_append, List.nil_append,
        mergePrev_cons_skip z x (b :: post) a hx,
        mergePrev_hit_free x b post a hb hxf]
      rfl
    | cons q pre2 =>
      have hq : q.addr ≠ a := hpre2 q (List.mem_cons_self q pre2)
      rw [List.cons_append, List.cons_append,
        mergePrev_cons_skip z q (pre2 ++ x :: b :: post) a hq]
      rw [← List.cons_append, ih hpre2]
      rfl

/-- `mergePrev` with a used predecessor is inert, after any prefix that does
not carry the target address. -/
theorem mergePrev_at_used (pre : List BlockH) (x b : BlockH) (post : List BlockH)
    (a : Nat) (hpre : ∀ w ∈ pre, w.addr ≠ a) (hx : x.addr ≠ a) (hb : b.addr = a)
    (hxf : x.free = false) :
    mergePrev (pre ++ x :: b :: post) a = (pre ++ x :: b :: post, none) := by
  induction pre with
  | nil =>
    simp only [List.nil_append]
    exact mergePrev_hit_used x b post a hb hxf
  | cons z pre ih =>
    have hz : z.addr ≠ a := hpre z (List.mem_cons_self z pre)
    have hpre2 : ∀ w ∈ pre, w.addr ≠ a :=
      fun w hw => hpre w (List.mem_cons_of_mem z hw)
    cases pre with
    | nil =>
      rw [List.cons_append, List.nil_append,
        mergePrev_cons_skip z x (b :: post) a hx,
        mergePrev_hit_used x b post a hb hxf]
    | cons q pre2 =>
      have hq : q.addr ≠ a := hpre2 q (List.mem_cons_self q pre2)
      rw [List.cons_append, List.cons_append,
        mergePrev_cons_skip z q (pre2 ++ x :: b :: post) a hq]
      rw [← List.cons_append, ih hpre2]

/-- C8: the merge decision of `coalesce` depends only on the chain
neighbours' free flags, never on address contiguity.  For a released block `b`
with chain predecessor `x` and chain successor `y` at arbitrary — possibly
non-contiguous, cross-arena — addresses: a free successor is absorbed first
(adding `header_size()` plus its payload to `b`), then a free predecessor
absorbs the result and becomes the surviving returned block. -/
theorem coalesce_chain_adjacency (st : AState) (pre post : List BlockH)
    (x b y : BlockH) (hch : st.chain = pre ++ x :: b :: y :: post)
    (hnd : (st.chain.map BlockH.addr).Nodup) (_hbf : b.free = true) :
    (coalesce st b.addr).2 = (if x.free = true then x.addr else b.addr) ∧
    (coalesce st b.addr).1.chain =
      (if x.free = true then
        (if y.free = true then
          pre ++ { x with
            size := x.size + headerSize + (b.size + headerSize + y.size) } :: post
         else pre ++ { x with size := x.size + headerSize + b.size } :: y :: post)
       else
        (if y.free = true then
          pre ++ x :: { b with size := b.size + headerSize + y.size } :: post
         else pre ++ x :: b :: y :: post)) := by
  have hndm : (pre.map BlockH.addr ++
      x.addr :: b.addr :: y.addr :: post.map BlockH.addr).Nodup := by
    rw [hch] at hnd
    simpa using hnd
  have hpre : ∀ w ∈ pre, w.addr ≠ b.addr := by
    intro w hw hweq
    exact List.disjoint_of_nodup_append hndm
      (hweq ▸ List.mem_map_of_mem BlockH.addr hw) (by simp)
  have hx : x.addr ≠ b.addr := by
    have hr := (List.nodup_append.mp hndm).2.1
    intro he
    exact (List.nodup_cons.mp hr).1 (by rw [he]; simp)
  have hprex : ∀ w ∈ pre ++ [x], w.addr ≠ b.addr := by
    intro w hw
    rcases List.mem_append.mp hw with h1 | h2
    · exact hpre w h1
    · rw [List.mem_singleton.mp h2]
      exact hx
  have hsplit : st.chain = (pre ++ [x]) ++ b :: y :: post := by
    rw [hch]
    simp
  unfold coalesce
  dsimp only
  by_cases hyf : y.free = true
  · have hm1 : mergeNext st.chain b.addr =
        ((pre ++ [x]) ++ { b with size := b.size + headerSize + y.size } :: post,
          some y.addr) := by
      rw [hsplit, mergeNext_skip (pre ++ [x]) _ b.addr hprex,
        mergeNext_hit_free b y post b.addr rfl hyf]
    rw [hm1]
    dsimp only
    have hfold : (pre ++ [x]) ++
        { b with size := b.size + headerSize + y.size } :: post =
        pre ++ x :: { b with size := b.size + headerSize + y.size } :: post := by
      simp
    by_cases hxf : x.free = true
    · rw [hfold, mergePrev_at_free pre x
        { b with size := b.size + headerSize + y.size } post b.addr hpre hx rfl hxf]
      dsimp only
      rw [if_pos hxf, if_pos hxf, if_pos hyf]
      exact ⟨rfl, rfl⟩
    · have hxf2 : x.free = false := Bool.not_eq_true _ ▸ hxf
      rw [hfold, mergePrev_at_used pre x
        { b with size := b.size + headerSize + y.size } post b.addr hpre hx rfl hxf2]
      dsimp only
      rw [if_neg hxf, if_neg hxf, if_pos hyf]
      exact ⟨rfl, rfl⟩
  · have hyf2 : y.free = false := Bool.not_eq_true _ ▸ hyf
    have hm1 : mergeNext st.chain b.addr =
        ((pre ++ [x]) ++ b :: y :: post, none) := by
      rw [hsplit, mergeNext_skip (pre ++ [x]) _ b.addr hprex,
        mergeNext_hit_used b y post b.addr rfl hyf2]
    rw [hm1]
    dsimp only
    have hfold : (pre ++ [x]) ++ b :: y :: post =
        pre ++ x :: b :: y :: post := by
      simp
    by_cases hxf : x.free = true
    · rw [hfold, mergePrev_at_free pre x b (y :: post) b.addr hpre hx rfl hxf]
      dsimp only
      rw [if_pos hxf, if_pos hxf, if_neg hyf]
      exact ⟨rfl, rfl⟩
    · have hxf2 : x.free = false := Bool.not_eq_true _ ▸ hxf
      rw [hfold, mergePrev_at_used pre x b (y :: post) b.addr hpre hx rfl hxf2]
      dsimp only
      rw [if_neg hxf, if_neg hxf, if_neg hyf]
      exact ⟨rfl, rfl⟩

/-- The aligned request size is a multiple of the 8-byte alignment unit. -/
theorem alignUp_align (s : Nat) : alignUp s ALIGNMENT % 8 = 0 := by
  simp only [alignUp, ALIGNMENT]
  exact Nat.mul_mod_left _ 8

/-- The request never shrinks under alignment. -/
theorem le_alignUp (s : Nat) : s ≤ alignUp s ALIGNMENT := by
  simp only [alignUp, ALIGNMENT]
  omega

/-- `arenaTotalFor` of an aligned size is aligned and at least the arena
header plus the 1 MiB minimum. -/
theorem arenaTotalFor_facts (sz : Nat) (hsz : sz % 8 = 0) :
    arenaTotalFor sz % 8 = 0 ∧
    arenaHeaderSize + ARENA_MIN_SIZE ≤ arenaTotalFor sz ∧
    arenaHeaderSize + headerSize + sz ≤ arenaTotalFor sz := by
  unfold arenaTotalFor
  split <;>
    · rename_i hcond
      simp only [headerSize, arenaHeaderSize, ARENA_MIN_SIZE, true_and] at hcond hsz ⊢
      omega

/-- A page-aligned address is 8-aligned when the page size is. -/
theorem mod8_of_mod_ps (ps b : Nat) (hps8 : ps % 8 = 0) (hb : b % ps = 0) :
    b % 8 = 0 := by
  have h1 : (8 : Nat) ∣ ps := Nat.dvd_of_mod_eq_zero hps8
  have h2 : ps ∣ b := Nat.dvd_of_mod_eq_zero hb
  obtain ⟨k, hk⟩ := h1.trans h2
  subst hk
  exact Nat.mul_mod_right 8 k

/-- A successful lookup returns a chain member carrying the queried address. -/
theorem lookupBlock_mem (c : List BlockH) (a : Nat) (b : BlockH)
    (h : lookupBlock c a = some b) : b ∈ c ∧ b.addr = a := by
  induction c with
  | nil => exact absurd h (by simp [lookupBlock])
  | cons x rest ih =>
    rw [lookupBlock_cons] at h
    by_cases hx : x.addr = a
    · rw [if_pos hx, Option.some_inj] at h
      subst h
      exact ⟨List.mem_cons_self _ _, hx⟩
    · rw [if_neg hx] at h
      obtain ⟨h1, h2⟩ := ih h
      exact ⟨List.mem_cons_of_mem _ h1, h2⟩

/-- `setFreeFlag` preserves chain alignment. -/
theorem goodChain_setFreeFlag (c : List BlockH) (a : Nat) (v : Bool)
    (h : goodChain c) : goodChain (setFreeFlag c a v) := by
  induction c with
  | nil => exact h
  | cons b rest ih =>
    unfold setFreeFlag
    split
    · intro w hw
      rcases List.mem_cons.mp hw with h1 | h2
      · rw [h1]
        exact h b (List.mem_cons_self _ _)
      · exact h w (List.mem_cons_of_mem _ h2)
    · intro w hw
      rcases List.mem_cons.mp hw with h1 | h2
      · rw [h1]
        exact h b (List.mem_cons_self _ _)
      · exact ih (fun u hu => h u (List.mem_cons_of_mem _ hu)) w h2

/-- `splitChain` with an aligned request preserves chain alignment. -/
theorem goodChain_splitChain (c : List BlockH) (a req : Nat)
    (hreq : req % 8 = 0) (h : goodChain c) : goodChain (splitChain c a req) := by
  induction c with
  | nil => exact h
  | cons b rest ih =>
    unfold splitChain
    split
    · intro w hw
      have hb := h b (List.mem_cons_self _ _)
      obtain ⟨ha, hs, h32⟩ := hb
      rcases List.mem_cons.mp hw with h1 | h2
      · rw [h1]
        exact ⟨ha, hreq, h32⟩
      · rcases List.mem_cons.mp h2 with h3 | h4
        · rw [h3]
          refine ⟨?_, ?_, ?_⟩ <;>
            · dsimp only
              simp only [headerSize] at *
              omega
        · exact h w (List.mem_cons_of_mem _ h4)
    · intro w hw
      rcases List.mem_cons.mp hw with h1 | h2
      · rw [h1]
        exact h b (List.mem_cons_self _ _)
      · exact ih (fun u hu => h u (List.mem_cons_of_mem _ hu)) w h2

/-- `mergeNext` preserves chain alignment. -/
theorem goodChain_mergeNext (c : List BlockH) (a : Nat)
    (h : goodChain c) : goodChain (mergeNext c a).1 := by
  induction c with
  | nil => exact h
  | cons b rest ih =>
    by_cases hb : b.addr = a
    · cases rest with
      | nil =>
        rw [mergeNext_last b a hb]
        exact h
      | cons n rest2 =>
        by_cases hn : n.free
        · rw [mergeNext_hit_free b n rest2 a hb hn]
          intro w hw
          obtain ⟨ha, hs, h32⟩ := h b (List.mem_cons_self _ _)
          obtain ⟨-, hns, -⟩ := h n (List.mem_cons_of_mem _ (List.mem_cons_self _ _))
          rcases List.mem_cons.mp hw with h1 | h2
          · rw [h1]
            refine ⟨ha, ?_, h32⟩
            dsimp only
            simp only [headerSize] at *
            omega
          · exact h w (List.mem_cons_of_mem _ (List.mem_cons_of_mem _ h2))
        · rw [mergeNext_hit_used b n rest2 a hb (Bool.not_eq_true _ ▸ hn)]
          exact h
    · rw [mergeNext_cons_ne b rest a hb]
      intro w hw
      rcases List.mem_cons.mp hw with h1 | h2
      · rw [h1]
        exact h b (List.mem_cons_self _ _)
      · exact ih (fun u hu => h u (List.mem_cons_of_mem _ hu)) w h2

/-- `mergePrev` preserves chain alignment. -/
theorem goodChain_mergePrev (c : List BlockH) (a : Nat)
    (h : goodChain c) : goodChain (mergePrev c a).1 := by
  induction c with
  | nil => exact h
  | cons p rest ih =>
    cases rest with
    | nil => exact h
    | cons b rest2 =>
      by_cases hb : b.addr = a
      · by_cases hp : p.free
        · rw [mergePrev_hit_free p b rest2 a hb hp]
          intro w hw
          obtain ⟨ha, hs, h32⟩ := h p (List.mem_cons_self _ _)
          obtain ⟨-, hbs, -⟩ := h b (List.mem_cons_of_mem _ (List.mem_cons_self _ _))
          rcases List.mem_cons.mp hw with h1 | h2
          · rw [h1]
            refine ⟨ha, ?_, h32⟩
            dsimp only
            simp only [headerSize] at *
            omega
          · exact h w (List.mem_cons_of_mem _ (List.mem_cons_of_mem _ h2))
        · rw [mergePrev_hit_used p b rest2 a hb (Bool.not_eq_true _ ▸ hp)]
          exact h
      · rw [mergePrev_cons_skip p b rest2 a hb]
        intro w hw
        rcases List.mem_cons.mp hw with h1 | h2
        · rw [h1]
          exact h p (List.mem_cons_self _ _)
        · exact ih (fun u hu => h u (List.mem_cons_of_mem _ hu)) w h2

/-- `absorbNext` preserves chain alignment. -/
theorem goodChain_absorbNext (c : List BlockH) (a : Nat)
    (h : goodChain c) : goodChain (absorbNext c a) := by
  induction c with
  | nil => exact h
  | cons b rest ih =>
    unfold absorbNext
    by_cases hb : b.addr = a
    · rw [if_pos hb]
      cases rest with
      | nil =>
        dsimp only
        exact h
      | cons n rest2 =>
        dsimp only
        intro w hw
        obtain ⟨ha, hs, h32⟩ := h b (List.mem_cons_self _ _)
        obtain ⟨-, hns, -⟩ := h n (List.mem_cons_of_mem _ (List.mem_cons_self _ _))
        rcases List.mem_cons.mp hw with h1 | h2
        · rw [h1]
          refine ⟨ha, ?_, h32⟩
          dsimp only
          simp only [headerSize] at *
          omega
        · exact h w (List.mem_cons_of_mem _ (List.mem_cons_of_mem _ h2))
    · rw [if_neg hb]
      intro w hw
      rcases List.mem_cons.mp hw with h1 | h2
      · rw [h1]
        exact h b (List.mem_cons_self _ _)
      · exact ih (fun u hu => h u (List.mem_cons_of_mem _ hu)) w h2

/-- `split_block` with an aligned request preserves the chain invariant and
the page size. -/
theorem split_block_inv (st : AState) (a req : Nat) (hreq : req % 8 = 0)
    (h : goodChain st.chain) :
    goodChain (split_block st a req).chain ∧ (split_block st a req).ps = st.ps := by
  unfold split_block
  split
  · exact ⟨h, rfl⟩
  · exact ⟨goodChain_splitChain st.chain a req hreq h, rfl⟩

/-- `coalesce` preserves the chain invariant and the page size. -/
theorem coalesce_inv (st : AState) (a : Nat) (h : goodChain st.chain) :
    goodChain (coalesce st a).1.chain ∧ (coalesce st a).1.ps = st.ps := by
  unfold coalesce
  dsimp only
  split
  · exact ⟨goodChain_mergePrev _ a (goodChain_mergeNext st.chain a h), rfl⟩
  · exact ⟨goodChain_mergeNext st.chain a h, rfl⟩

/-- `request_space` keeps the page size, and with an aligned size and a
page-aligned grant keeps the chain invariant. -/
theorem request_space_inv (st st1 : AState) (sz a : Nat) (g : Option Nat)
    (hsz : sz % 8 = 0) (hg : ∀ b, g = some b → b % st.ps = 0)
    (hps8 : st.ps % 8 = 0) (hch : goodChain st.chain)
    (h : request_space st sz g = some (st1, a)) :
    goodChain st1.chain ∧ st1.ps = st.ps := by
  obtain ⟨ht8, htmin, htused⟩ := arenaTotalFor_facts sz hsz
  cases g with
  | none => simp [request_space] at h
  | some base =>
    have hbase : base % 8 = 0 := mod8_of_mod_ps st.ps base hps8 (hg base rfl)
    simp only [request_space] at h
    split at h
    all_goals
      simp only [Option.some.injEq, Prod.mk.injEq] at h
      rw [← h.1]
      refine ⟨?_, rfl⟩
      intro w hw
      rcases List.mem_append.mp hw with h1 | h2
      · exact hch w h1
    · rcases List.mem_cons.mp h2 with h3 | h4
      · subst h3
        refine ⟨?_, hsz, ?_⟩ <;>
          · dsimp only
            simp only [arenaHeaderSize] at *
            omega
      · rw [List.mem_singleton.mp h4]
        refine ⟨?_, ?_, ?_⟩ <;>
          · dsimp only
            simp only [arenaHeaderSize, headerSize, ARENA_MIN_SIZE] at *
            omega
    · rw [List.mem_singleton.mp h2]
      refine ⟨?_, hsz, ?_⟩ <;>
        · dsimp only
          simp only [arenaHeaderSize] at *
          omega

/-- `j_malloc` preserves the alignment invariant. -/
theorem j_malloc_inv (st : AState) (s : Nat) (g : Option Nat)
    (hg : ∀ b, g = some b → b % st.ps = 0) (hinv : AlignInv st) :
    AlignInv (j_malloc st s g).1 := by
  obtain ⟨hps8, hpspos, hch⟩ := hinv
  unfold j_malloc
  dsimp only
  split
  · exact ⟨hps8, hpspos, hch⟩
  · split
    · split
      · exact ⟨hps8, hpspos, hch⟩
      · rename_i st1 baddr heq
        obtain ⟨h1, h2⟩ := request_space_inv st st1 (alignUp s ALIGNMENT) baddr g
          (alignUp_align s) hg hps8 hch heq
        refine ⟨?_, ?_, h1⟩
        · rw [h2]
          exact hps8
        · rw [h2]
          exact hpspos
    · rename_i blk heq
      have hsplit := split_block_inv st blk.addr (alignUp s ALIGNMENT)
        (alignUp_align s) hch
      split
      · refine ⟨?_, ?_, goodChain_setFreeFlag _ blk.addr false hsplit.1⟩
        · rw [hsplit.2]
          exact hps8
        · rw [hsplit.2]
          exact hpspos
      · exact ⟨hps8, hpspos, goodChain_setFreeFlag _ blk.addr false hch⟩

/-- `j_free` preserves the alignment invariant. -/
theorem j_free_inv (st st1 : AState) (p : Nat) (hinv : AlignInv st)
    (h : j_free st p = some st1) : AlignInv st1 := by
  obtain ⟨hps8, hpspos, hch⟩ := hinv
  unfold j_free at h
  split at h
  · cases h
    exact ⟨hps8, hpspos, hch⟩
  · dsimp only at h
    split at h
    · rename_i blk heqlb
      split at h
      · cases h
        exact ⟨hps8, hpspos, hch⟩
      · cases h
        have hg2 : goodChain (setFreeFlag st.chain (p - headerSize) true) :=
          goodChain_setFreeFlag _ _ true hch
        obtain ⟨h1, h2⟩ := coalesce_inv
          { st with
            chain := setFreeFlag st.chain (p - headerSize) true,
            freeTally := st.freeTally + blk.size }
          (p - headerSize) hg2
        refine ⟨?_, ?_, h1⟩
        · rw [h2]
          exact hps8
        · rw [h2]
          exact hpspos
    · split at h
      · cases h
        exact ⟨hps8, hpspos, hch⟩
      · exact absurd h (by simp)

/-- `j_realloc` preserves the alignment invariant. -/
theorem j_realloc_inv (st st1 : AState) (r : Option Nat) (p s : Nat)
    (g : Option Nat) (hg : ∀ b, g = some b → b % st.ps = 0)
    (hinv : AlignInv st) (h : j_realloc st p s g = some (st1, r)) :
    AlignInv st1 := by
  unfold j_realloc at h
  split at h
  · simp only [Option.some.injEq] at h
    have h3 : (j_malloc st s g).1 = st1 := by rw [h]
    exact h3 ▸ j_malloc_inv st s g hg hinv
  · split at h
    · rw [Option.map_eq_some'] at h
      obtain ⟨st2, hfr, hpair⟩ := h
      have h3 : st2 = st1 := congrArg Prod.fst hpair
      exact h3 ▸ j_free_inv st st2 p hinv hfr
    · dsimp only at h
      split at h
      · simp at h
      · rename_i blk heqlook
        obtain ⟨hps8, hpspos, hch⟩ := hinv
        split at h
        · simp only [Option.some.injEq, Prod.mk.injEq] at h
          rw [← h.1]
          have hsplit := split_block_inv st (p - headerSize) (alignUp s ALIGNMENT)
            (alignUp_align s) hch
          split
          · refine ⟨?_, ?_, hsplit.1⟩
            · rw [hsplit.2]
              exact hps8
            · rw [hsplit.2]
              exact hpspos
          · exact ⟨hps8, hpspos, hch⟩
        · have hmove : ∀ st' r',
              reallocMove st p blk.size (alignUp s ALIGNMENT) g = some (st', r') →
              AlignInv st' := by
            intro st' r' hm
            unfold reallocMove at hm
            dsimp only at hm
            have hm_inv : AlignInv (j_malloc st (alignUp s ALIGNMENT) g).1 :=
              j_malloc_inv st (alignUp s ALIGNMENT) g hg ⟨hps8, hpspos, hch⟩
            split at hm
            · simp only [Option.some.injEq, Prod.mk.injEq] at hm
              rw [← hm.1]
              exact hm_inv
            · rw [Option.map_eq_some'] at hm
              obtain ⟨st3, hfr, hpair⟩ := hm
              have h3 : st3 = st' := congrArg Prod.fst hpair
              refine h3 ▸ j_free_inv _ st3 p ?_ hfr
              exact ⟨hm_inv.1, hm_inv.2.1, hm_inv.2.2⟩
          split at h
          · rename_i n heqnext
            split at h
            · simp only [Option.some.injEq, Prod.mk.injEq] at h
              rw [← h.1]
              have habs : goodChain (absorbNext st.chain (p - headerSize)) :=
                goodChain_absorbNext st.chain _ hch
              have hsplit := split_block_inv
                { st with
                  chain := absorbNext st.chain (p - headerSize),
                  freeTally := st.freeTally - n.size,
                  stale := n.addr :: st.stale }
                (p - headerSize) (alignUp s ALIGNMENT) (alignUp_align s) habs
              split
              · refine ⟨?_, ?_, hsplit.1⟩
                · rw [hsplit.2]
                  exact hps8
                · rw [hsplit.2]
                  exact hpspos
              · exact ⟨hps8, hpspos, habs⟩
            · exact hmove st1 r h
          · exact hmove st1 r h

/-- Conversion of the Region Provider contract carried by an operation. -/
theorem grantsAligned_malloc (s : Nat) (g : Option Nat) (ps : Nat)
    (h : Op.grantsAligned (Op.malloc s g) ps) :
    ∀ b, g = some b → b % ps = 0 := by
  intro b hb
  subst hb
  exact h

/-- Conversion of the Region Provider contract carried by an operation. -/
theorem grantsAligned_realloc (p s : Nat) (g : Option Nat) (ps : Nat)
    (h : Op.grantsAligned (Op.realloc p s g) ps) :
    ∀ b, g = some b → b % ps = 0 := by
  intro b hb
  subst hb
  exact h

/-- Every reachable state satisfies the alignment invariant. -/
theorem reachable_alignInv (st : AState) (h : Reachable st) : AlignInv st := by
  induction h with
  | init ps h8 hpos =>
    exact ⟨h8, hpos, fun b hb => absurd hb (by simp [initState])⟩
  | step hr hg hs ih =>
    rename_i st0 st' op
    cases op with
    | malloc s g =>
      cases hs
      exact j_malloc_inv st0 s g (grantsAligned_malloc s g st0.ps hg) ih
    | free p =>
      exact j_free_inv st0 st' p ih hs
    | realloc p s g =>
      unfold step at hs
      rw [Option.map_eq_some'] at hs
      obtain ⟨pr, hpr, hfst⟩ := hs
      exact hfst ▸ j_realloc_inv st0 pr.1 pr.2 p s g
        (grantsAligned_realloc p s g st0.ps hg) ih (by rw [hpr])
    | heapBytes =>
      cases hs
      exact ih
    | freeBytes =>
      cases hs
      exact ih

/-- On success `request_space` hands back the first block address: the grant
base plus the arena header. -/
theorem request_space_baddr (st st1 : AState) (sz a : Nat) (g : Option Nat)
    (h : request_space st sz g = some (st1, a)) :
    ∃ base, g = some base ∧ a = base + arenaHeaderSize := by
  cases g with
  | none => simp [request_space] at h
  | some base =>
    simp only [request_space] at h
    split at h
    all_goals
      simp only [Option.some.injEq, Prod.mk.injEq] at h
      exact ⟨base, rfl, h.2.symm⟩

/-- A successful `j_malloc` under the invariant returns an 8-aligned pointer. -/
theorem j_malloc_ret_aligned (st : AState) (s : Nat) (g : Option Nat) (q : Nat)
    (hinv : AlignInv st) (hg : ∀ b, g = some b → b % st.ps = 0)
    (h : (j_malloc st s g).2 = some q) : q % 8 = 0 := by
  obtain ⟨hps8, -, hch⟩ := hinv
  unfold j_malloc at h
  dsimp only at h
  split at h
  · simp at h
  · split at h
    · split at h
      · simp at h
      · rename_i st1 baddr heq
        simp only [Option.some.injEq] at h
        obtain ⟨base, hgb, hb⟩ := request_space_baddr st st1 _ baddr g heq
        have hbase : base % 8 = 0 := mod8_of_mod_ps st.ps base hps8 (hg base hgb)
        subst h
        subst hb
        simp only [arenaHeaderSize, headerSize]
        omega
    · rename_i blk heq
      simp only [Option.some.injEq] at h
      subst h
      have hmem : blk ∈ st.chain := List.mem_of_find?_eq_some heq
      obtain ⟨ha, -, -⟩ := hch blk hmem
      simp only [headerSize]
      omega

/-- A successful `j_realloc` under the invariant returns an 8-aligned pointer. -/
theorem j_realloc_ret_aligned (st st' : AState) (p s : Nat) (g : Option Nat)
    (q : Nat) (hinv : AlignInv st) (hg : ∀ b, g = some b → b % st.ps = 0)
    (h : j_realloc st p s g = some (st', some q)) : q % 8 = 0 := by
  unfold j_realloc at h
  split at h
  · simp only [Option.some.injEq] at h
    have h2 : (j_malloc st s g).2 = some q := by rw [h]
    exact j_malloc_ret_aligned st s g q hinv hg h2
  · split at h
    · rw [Option.map_eq_some'] at h
      obtain ⟨st2, -, hpair⟩ := h
      exact absurd (congrArg Prod.snd hpair) (by simp)
    · dsimp only at h
      split at h
      · simp at h
      · rename_i blk heqlook
        obtain ⟨hblkmem, hblkaddr⟩ := lookupBlock_mem st.chain _ blk heqlook
        obtain ⟨haddr8, -, haddr32⟩ := hinv.2.2 blk hblkmem
        have hmove : ∀ st1 r,
            reallocMove st p blk.size (alignUp s ALIGNMENT) g = some (st1, r) →
            r = some q → q % 8 = 0 := by
          intro st1 r hm hr
          subst hr
          unfold reallocMove at hm
          dsimp only at hm
          split at hm
          · simp only [Option.some.injEq, Prod.mk.injEq] at hm
            exact absurd hm.2 (by simp)
          · rename_i q0 heqm
            rw [Option.map_eq_some'] at hm
            obtain ⟨st3, -, hpair⟩ := hm
            have hq : some q0 = some q := congrArg Prod.snd hpair
            rw [Option.some_inj] at hq
            exact hq ▸ j_malloc_ret_aligned st _ g q0 hinv hg heqm
        split at h
        · simp only [Option.some.injEq, Prod.mk.injEq] at h
          rw [← h.2]
          simp only [headerSize] at hblkaddr
          omega
        · split at h
          · split at h
            · simp only [Option.some.injEq, Prod.mk.injEq] at h
              rw [← h.2]
              simp only [headerSize] at hblkaddr ⊢
              omega
            · exact hmove st' (some q) h rfl
          · exact hmove st' (some q) h rfl

/-- C2: in every reachable state, under the Region Provider contract that
grants are page-aligned, every payload address returned by a successful
`allocate(s)` with `s ≥ 1` is a multiple of 8, and so is every payload
address returned by `resize`. -/
theorem allocate_resize_aligned (st : AState) (h : Reachable st)
    (g : Option Nat) (hg : ∀ b, g = some b → b % st.ps = 0) :
    (∀ s q, 1 ≤ s → (j_malloc st s g).2 = some q → q % 8 = 0) ∧
    (∀ p s st' q, j_realloc st p s g = some (st', some q) → q % 8 = 0) := by
  have hinv := reachable_alignInv st h
  exact ⟨fun s q _ hm => j_malloc_ret_aligned st s g q hinv hg hm,
    fun p s st' q hr => j_realloc_ret_aligned st st' p s g q hinv hg hr⟩

/-- Witness for C2: the first allocation on a fresh 4096-byte-page platform
returns payload address 64, a multiple of 8. -/
theorem allocate_resize_aligned_witness :
    (j_malloc (initState 4096) 8 (some 0)).2 = some 64 ∧ (64 : Nat) % 8 = 0 :=
  ⟨rfl, (allocate_resize_aligned (initState 4096)
    (Reachable.init 4096 (by decide) (by decide)) (some 0)
    (fun b hb => by cases hb; rfl)).1 8 64 (by decide) rfl⟩

/-- Aligning an already aligned size changes nothing. -/
theorem alignUp_idem (x : Nat) (h : x % 8 = 0) : alignUp x ALIGNMENT = x := by
  simp only [alignUp, ALIGNMENT]
  omega

/-- Reading outside a clobbered header region sees the old bytes. -/
theorem clobber_outside (m : Nat → Nat) (a n x : Nat)
    (h : x < a ∨ a + n ≤ x) : clobber m a n x = m x := by
  unfold clobber
  rw [if_neg]
  omega

/-- Reading outside the copy destination sees the old bytes. -/
theorem copyBytes_outside (m : Nat → Nat) (dst src n x : Nat)
    (h : x < dst ∨ dst + n ≤ x) : copyBytes m dst src n x = m x := by
  unfold copyBytes
  rw [if_neg]
  omega

/-- Reading inside the copy destination sees the source bytes. -/
theorem copyBytes_inside (m : Nat → Nat) (dst src n i : Nat)
    (h : i < n) : copyBytes m dst src n (dst + i) = m (src + i) := by
  unfold copyBytes
  rw [if_pos (by omega)]
  congr 1
  omega

/-- Pointwise agreement of the read windows gives equal reads. -/
theorem readBytes_congr (m1 m2 : Nat → Nat) (a b n : Nat)
    (h : ∀ i, i < n → m1 (a + i) = m2 (b + i)) :
    readBytes m1 a n = readBytes m2 b n := by
  unfold readBytes
  refine List.map_congr_left ?_
  intro i hi
  exact h i (List.mem_range.mp hi)

/-- `split_block` only writes the fresh header's 32 bytes. -/
theorem split_block_mem_outside (st : AState) (a req x : Nat)
    (hx : x < a + headerSize + req ∨ a + headerSize + req + headerSize ≤ x) :
    (split_block st a req).mem x = st.mem x := by
  unfold split_block
  split
  · rfl
  · exact clobber_outside _ _ _ x hx

/-- `coalesce` performs no byte writes. -/
theorem coalesce_mem (st : AState) (a : Nat) :
    (coalesce st a).1.mem = st.mem := by
  unfold coalesce
  dsimp only
  split <;> rfl

/-- `j_free` performs no byte writes. -/
theorem j_free_mem (st st1 : AState) (p : Nat) (h : j_free st p = some st1) :
    st1.mem = st.mem := by
  unfold j_free at h
  split at h
  · cases h
    rfl
  · dsimp only at h
    split at h
    · split at h
      · cases h
        rfl
      · cases h
        rw [coalesce_mem]
    · split at h
      · cases h
        rfl
      · exact absurd h (by simp)

/-- All byte writes of `request_space` land inside the granted region. -/
theorem request_space_mem_outside (st st1 : AState) (sz a base x : Nat)
    (h : request_space st sz (some base) = some (st1, a))
    (hx : x < base ∨ base + arenaTotalFor sz ≤ x) :
    st1.mem x = st.mem x := by
  have hge : arenaHeaderSize + headerSize + sz ≤ arenaTotalFor sz ∧
      arenaHeaderSize + ARENA_MIN_SIZE ≤ arenaTotalFor sz := by
    unfold arenaTotalFor
    split <;>
      · simp only [headerSize, arenaHeaderSize, ARENA_MIN_SIZE] at *
        omega
  simp only [request_space] at h
  split at h
  · rename_i hcond
    simp only [Option.some.injEq, Prod.mk.injEq] at h
    rw [← h.1]
    dsimp only
    rw [clobber_outside, clobber_outside, clobber_outside]
    · simp only [headerSize, arenaHeaderSize, ARENA_MIN_SIZE] at *
      omega
    · simp only [headerSize, arenaHeaderSize, ARENA_MIN_SIZE] at *
      omega
    · simp only [headerSize, arenaHeaderSize, ARENA_MIN_SIZE] at *
      omega
  · simp only [Option.some.injEq, Prod.mk.injEq] at h
    rw [← h.1]
    dsimp only
    rw [clobber_outside, clobber_outside]
    · simp only [headerSize, arenaHeaderSize, ARENA_MIN_SIZE] at *
      omega
    · simp only [headerSize, arenaHeaderSize, ARENA_MIN_SIZE] at *
      omega

/-- Chain separation relates any two distinct chain members. -/
theorem chainSeparated_apart (c : List BlockH) (hsep : ChainSeparated c)
    (b1 b2 : BlockH) (h1 : b1 ∈ c) (h2 : b2 ∈ c) (hne : b1 ≠ b2) :
    blocksApart b1 b2 :=
  hsep.forall (fun _ _ h => Or.symm h) h1 h2 hne

/-- A successful first-fit search returns a free chain block whose payload
admits the request. -/
theorem find_first_fit_spec (c : List BlockH) (sz : Nat) (f : BlockH)
    (h : find_first_fit c sz = some f) :
    f ∈ c ∧ f.free = true ∧ sz ≤ f.size := by
  refine ⟨List.mem_of_find?_eq_some h, ?_⟩
  have := List.find?_some h
  rw [Bool.and_eq_true] at this
  exact ⟨this.1, of_decide_eq_true this.2⟩

/-- All byte writes of `j_malloc` land outside the payload of any used block
of a separated chain, provided any fresh grant is disjoint from that payload. -/
theorem j_malloc_mem_outside (st : AState) (s : Nat) (g : Option Nat)
    (blk : BlockH) (hsep : ChainSeparated st.chain)
    (hblk : blk ∈ st.chain) (hused : blk.free = false)
    (hfresh : ∀ base, g = some base →
      blk.addr + headerSize + blk.size ≤ base ∨
      base + arenaTotalFor (alignUp s ALIGNMENT) ≤ blk.addr + headerSize)
    (x : Nat) (hx1 : blk.addr + headerSize ≤ x)
    (hx2 : x < blk.addr + headerSize + blk.size) :
    (j_malloc st s g).1.mem x = st.mem x := by
  unfold j_malloc
  dsimp only
  split
  · rfl
  · split
    · split
      · rfl
      · rename_i st1 baddr heq
        obtain ⟨base, hgb, -⟩ := request_space_baddr st st1 _ baddr g heq
        subst hgb
        refine request_space_mem_outside st st1 _ baddr base x heq ?_
        rcases hfresh base rfl with hf | hf
        · left
          omega
        · right
          omega
    · rename_i f heqf
      obtain ⟨hfmem, hffree, hfsz⟩ := find_first_fit_spec st.chain _ f heqf
      have hne : f ≠ blk := by
        intro he
        rw [he, hused] at hffree
        exact Bool.false_ne_true hffree
      have hapart := chainSeparated_apart st.chain hsep f blk hfmem hblk hne
      split
      · rename_i hcond
        refine split_block_mem_outside st f.addr _ x ?_
        rcases hapart with h1 | h2
        · right
          simp only [headerSize, ALIGNMENT] at *
          omega
        · left
          simp only [headerSize, ALIGNMENT] at *
          omega
      · rfl

/-- The relocate path preserves any payload window the caller keeps: the
fresh block is written elsewhere, `memcpy` copies the old bytes across, and
releasing the old block writes nothing. -/
theorem reallocMove_mem (st st' : AState) (p ns q : Nat) (blk : BlockH)
    (g : Option Nat) (hsep : ChainSeparated st.chain) (hblk : blk ∈ st.chain)
    (hused : blk.free = false) (hpe : blk.addr + headerSize = p)
    (hns8 : ns % 8 = 0)
    (hfresh : ∀ base, g = some base →
      p + blk.size ≤ base ∨ base + arenaTotalFor ns ≤ p)
    (hm : reallocMove st p blk.size ns g = some (st', some q))
    (k : Nat) (hk : k ≤ blk.size) (hk2 : k ≤ ns) :
    readBytes st'.mem q k = readBytes st.mem p k := by
  have hfresh2 : ∀ base, g = some base →
      blk.addr + headerSize + blk.size ≤ base ∨
      base + arenaTotalFor (alignUp ns ALIGNMENT) ≤ blk.addr + headerSize := by
    intro base hb
    rw [alignUp_idem ns hns8, hpe]
    exact hfresh base hb
  have hmal := fun x hx1 hx2 =>
    j_malloc_mem_outside st ns g blk hsep hblk hused hfresh2 x hx1 hx2
  unfold reallocMove at hm
  dsimp only at hm
  split at hm
  · simp at hm
  · rename_i q0 heqm
    rw [Option.map_eq_some'] at hm
    obtain ⟨st3, hfr, hpair⟩ := hm
    have hq : q0 = q := by
      have h2 := congrArg Prod.snd hpair
      simpa using h2
    subst hq
    have hst : st3 = st' := congrArg Prod.fst hpair
    rw [← hst]
    have hfm := j_free_mem _ st3 p hfr
    rw [hfm]
    have hkeep : (if blk.size < ns then blk.size else ns) = min blk.size ns := by
      split <;> omega
    refine readBytes_congr _ _ q0 p k ?_
    intro i hi
    show copyBytes (j_malloc st ns g).1.mem q0 p
      (if blk.size < ns then blk.size else ns) (q0 + i) = st.mem (p + i)
    rw [copyBytes_inside _ _ _ _ i (by rw [hkeep]; omega)]
    exact hmal (p + i) (by omega) (by omega)

/-- C3: for a live block with payload bytes `B`, a successful
`resize(p, s)` preserves the first `min(len B, s)` bytes at the returned
address — in place on the shrink and forward-merge paths, by `memcpy` on the
relocate path — whenever the chain is separated and any fresh region the
Region Provider grants is disjoint from the old payload. -/
theorem resize_preserves_data (st : AState) (p s : Nat) (blk : BlockH)
    (g : Option Nat) (st' : AState) (q : Nat)
    (hp32 : 32 ≤ p) (hs : s ≠ 0)
    (hlook : lookupBlock st.chain (p - headerSize) = some blk)
    (hlive : blk.free = false)
    (hsep : ChainSeparated st.chain)
    (hfresh : ∀ base, g = some base →
      p + blk.size ≤ base ∨ base + arenaTotalFor (alignUp s ALIGNMENT) ≤ p)
    (hrun : j_realloc st p s g = some (st', some q)) :
    readBytes st'.mem q (min blk.size s) = readBytes st.mem p (min blk.size s) := by
  have hp0 : p ≠ 0 := by omega
  obtain ⟨hblkmem, hblkaddr⟩ := lookupBlock_mem st.chain _ blk hlook
  have hpe : blk.addr + headerSize = p := by
    simp only [headerSize] at *
    omega
  have hsle : s ≤ alignUp s ALIGNMENT := le_alignUp s
  unfold j_realloc at hrun
  rw [if_neg hp0, if_neg hs] at hrun
  dsimp only at hrun
  rw [hlook] at hrun
  dsimp only at hrun
  split at hrun
  · rename_i hfit
    simp only [Option.some.injEq, Prod.mk.injEq] at hrun
    rw [← hrun.1, ← hrun.2]
    refine readBytes_congr _ _ p p _ ?_
    intro i hi
    split
    · refine split_block_mem_outside st _ _ _ (Or.inl ?_)
      simp only [headerSize] at *
      omega
    · rfl
  · split at hrun
    · rename_i n heqn
      split at hrun
      · rename_i hmerge
        simp only [Option.some.injEq, Prod.mk.injEq] at hrun
        rw [← hrun.1, ← hrun.2]
        have hq : p - headerSize + headerSize = p := by
          simp only [headerSize] at *
          omega
        rw [hq]
        refine readBytes_congr _ _ p p _ ?_
        intro i hi
        split
        · refine split_block_mem_outside _ _ _ _ (Or.inl ?_)
          simp only [headerSize] at *
          omega
        · rfl
      · exact reallocMove_mem st st' p (alignUp s ALIGNMENT) q blk g hsep
          hblkmem hlive hpe (alignUp_align s) hfresh hrun
          (min blk.size s) (Nat.min_le_left _ _)
          (le_trans (Nat.min_le_right _ _) hsle)
    · exact reallocMove_mem st st' p (alignUp s ALIGNMENT) q blk g hsep
        hblkmem hlive hpe (alignUp_align s) hfresh hrun
        (min blk.size s) (Nat.min_le_left _ _)
        (le_trans (Nat.min_le_right _ _) hsle)

/-- Witness for C3: shrinking a 16-byte live block to 8 bytes in place keeps
the first 8 payload bytes intact. -/
theorem resize_preserves_data_witness :
    let st : AState :=
      { ps := 4096, arenas := [⟨0, 1024, 32⟩], chain := [⟨32, 16, false⟩],
        totalBytes := 1024, freeTally := 0, mem := fun x => x % 251, stale := [] }
    ∃ st', j_realloc st 64 8 none = some (st', some 64) ∧
      readBytes st'.mem 64 (min 16 8) = readBytes st.mem 64 (min 16 8) := by
  intro st
  refine ⟨st, rfl, ?_⟩
  exact resize_preserves_data st 64 8 ⟨32, 16, false⟩ none st 64 (by decide)
    (by decide) rfl rfl (by simp [ChainSeparated])
    (fun base hb => by cases hb) rfl

/-- Witness for C8: three free blocks at wildly non-contiguous addresses in
different arenas; releasing the middle one merges all three by pure chain
adjacency, the predecessor surviving. -/
theorem coalesce_chain_adjacency_witness :
    let st : AState :=
      { ps := 4096, arenas := [⟨8192, 4096, 8224⟩, ⟨0, 4096, 32⟩],
        chain := [⟨32, 64, true⟩, ⟨4128, 64, true⟩, ⟨8224, 64, true⟩],
        totalBytes := 8192, freeTally := 192, mem := fun _ => 0, stale := [] }
    (coalesce st 4128).2 = 32 ∧
    (coalesce st 4128).1.chain = [⟨32, 256, true⟩] := by
  intro st
  have h := coalesce_chain_adjacency st [] [] ⟨32, 64, true⟩ ⟨4128, 64, true⟩
    ⟨8224, 64, true⟩ rfl (by decide) rfl
  simpa using h

end JMalloc
